import Mathlib

/-!
# Verification of `core_filename_parts_parser`

A shallow embedding, over `List Char`, of the FontCore module
`core_filename_parts_parser.py`: PascalCase tokenization (the compiled
regex alternation `_TOKEN_PATTERN` scanned with `finditer`), per-token
casing (`_format_token`), the digit+lowercase merge pass, the contextual
spacing engine (`apply_spacing_rules`), basename normalization
(`_normalize_basename`), and the public entry points
`format_pascal_words`, `split_family_subfamily`, `family_from_filename`,
`parse_filename`.

Modelling conventions:
* Python `str` is modelled as `List Char` (wrapped into `String` for the
  public entry points).  Character classes (`[A-Z]`, `[a-z]`, `\d`,
  `str.isupper`, `str.islower`, `str.isdigit`, `str.isalpha`,
  `str.upper`, `str.lower`, `str.strip`) are modelled at ASCII precision:
  the Python code applies them to Unicode, but every claim under
  verification concerns ASCII behaviour, and non-ASCII characters flow
  through both the source and the model unchanged.
* The regex alternation is compiled by hand into one matcher function per
  alternative, returning the length matched at the current position;
  Python `re` alternation semantics (leftmost position, first alternative
  wins, greedy/lazy quantifiers with backtracking) are resolved statically
  per alternative, since each alternative is simple enough to admit a
  closed form.
* Recursion that is not structural in the scanned list is implemented
  with an explicit fuel argument (initialised to the list length, which
  every scan step decreases), so that all definitions reduce inside the
  kernel and concrete instances can be settled by `decide`/`rfl`.
-/

namespace FontCore

/-! ## ASCII character classes (regex `[A-Z]`, `[a-z]`, `\d` and Python
single-character `isupper`/`islower`/`isdigit`/`isalpha`) -/

def upperB (c : Char) : Bool := decide (65 ≤ c.toNat ∧ c.toNat ≤ 90)

def lowerB (c : Char) : Bool := decide (97 ≤ c.toNat ∧ c.toNat ≤ 122)

def digitB (c : Char) : Bool := decide (48 ≤ c.toNat ∧ c.toNat ≤ 57)

def alphaB (c : Char) : Bool := upperB c || lowerB c

/-- A character with an ASCII case, i.e. counted as "cased" by the
`str.isupper` / `str.islower` tests (ASCII model). -/
def casedB (c : Char) : Bool := upperB c || lowerB c

/-! ## ASCII case mapping (Python `str.upper` / `str.lower`, ASCII model),
written as lookup tables so that all facts about them are by list
enumeration. -/

def upperPairs : List (Char × Char) :=
  [('a','A'), ('b','B'), ('c','C'), ('d','D'), ('e','E'), ('f','F'),
   ('g','G'), ('h','H'), ('i','I'), ('j','J'), ('k','K'), ('l','L'),
   ('m','M'), ('n','N'), ('o','O'), ('p','P'), ('q','Q'), ('r','R'),
   ('s','S'), ('t','T'), ('u','U'), ('v','V'), ('w','W'), ('x','X'),
   ('y','Y'), ('z','Z')]

def charUpper (c : Char) : Char :=
  match upperPairs.find? (fun p => p.1 == c) with
  | some p => p.2
  | none => c

def charLower (c : Char) : Char :=
  match upperPairs.find? (fun p => p.2 == c) with
  | some p => p.1
  | none => c

/-! ## Tokenizer: the `_TOKEN_PATTERN` alternation -/

/-- Apostrophe character (U+0027), named to keep the character literal
out of the source text. -/
def apostropheChar : Char := Char.ofNat 39

/-- Characters matched as stand-alone `PunctuationAtom` tokens
(alternatives `_AMPERSAND` … `_AT` of `_TOKEN_PATTERN`). -/
def isTokSpecial (c : Char) : Bool :=
  ['&', '!', '*', '(', '{', '[', ']', '}', '?', ',', ';', '$', '%', '@'].contains c

/-- The character class `[&!*(){}\[\]?,;$\-%@']` appearing in the
lookahead of `_CAPITALIZED_WORD` (note: includes `)`, `-` and the
apostrophe, unlike the token-atom set). -/
def isStopSpecial (c : Char) : Bool :=
  ['&', '!', '*', '(', ')', '{', '}', '[', ']', '?', ',', ';', '$', '-', '%', '@', apostropheChar].contains c

/-- Lookahead of `_CAPITALIZED_WORD`: next char is `[A-Z]`, `\d`, or in the
punctuation class.  (The regex lists the alternative `(?<![A-Z])[A-Z]\d`
as well, but after at least one `[a-z]` the lookbehind always succeeds and
`[A-Z]` alone subsumes it.) -/
def isStop (c : Char) : Bool := upperB c || digitB c || isStopSpecial c

/-- Predicate `stopOk cs` : the `_CAPITALIZED_WORD` lookahead holds at the position
where `cs` is the remaining input (`$` or a stop character). -/
def stopOk : List Char → Bool
  | [] => true
  | c :: _ => isStop c

/-- Length of the maximal run of uppercase letters at the head. -/
def upperRun (cs : List Char) : Nat := (cs.takeWhile upperB).length

/-- Length of the maximal run of lowercase letters at the head. -/
def lowerRun (cs : List Char) : Nat := (cs.takeWhile lowerB).length

/-- Length of the maximal run of digits at the head. -/
def digitRun (cs : List Char) : Nat := (cs.takeWhile digitB).length

/-- Length consumed by the greedy `(?:\.\d+)*` (dot-decimal continuation
groups).  Fueled; `decGroupsLen` supplies fuel `cs.length`, which is an
upper bound on consumption. -/
def decGroupsF : Nat → List Char → Nat
  | 0, _ => 0
  | fuel + 1, cs =>
    match cs with
    | '.' :: rest =>
      let d := digitRun rest
      if d = 0 then 0 else 1 + d + decGroupsF fuel (rest.drop d)
    | _ => 0

def decGroupsLen (cs : List Char) : Nat := decGroupsF cs.length cs

/-- Regex `_ACRONYM_BEFORE_CAMEL = [A-Z]+(?=[A-Z][a-z])`: the greedy uppercase
run backtracks exactly one character to satisfy the lookahead, so it
matches iff the maximal uppercase run has length `k ≥ 2` and the character
at index `k` is lowercase, with match length `k - 1`. -/
def altAcronym (cs : List Char) : Option Nat :=
  let k := upperRun cs
  if 2 ≤ k then
    match cs[k]? with
    | some c => if lowerB c then some (k - 1) else none
    | none => none
  else none

/-- Regex `_SINGLE_CAP_NUMBER = (?<![A-Z])[A-Z]\d+(?:\.\d+)*` (lookbehind on the
character before the match position). -/
def altSingleCapNum (prev : Option Char) (cs : List Char) : Option Nat :=
  match cs with
  | [] => none
  | c :: rest =>
    if upperB c && !(match prev with | some p => upperB p | none => false) then
      let d := digitRun rest
      if d = 0 then none
      else some (1 + d + decGroupsLen (rest.drop d))
    else none

/-- Regex `_DECIMAL_NUMBER = \d+(?:\.\d+)+` (at least one dot group). -/
def altDecimal (cs : List Char) : Option Nat :=
  let d := digitRun cs
  if d = 0 then none
  else
    let g := decGroupsLen (cs.drop d)
    if g = 0 then none else some (d + g)

/-- Regex `_CAPITALIZED_WORD = [A-Z]?[a-z]+?(?=[A-Z]|(?<![A-Z])[A-Z]\d|\d|[&!*(){}\[\]?,;$\-%@']|$)`:
the lazy `[a-z]+?` extends while the next character is lowercase (the
lookahead cannot hold there) and then requires the lookahead; the optional
leading capital is taken iff present and followed by a lowercase letter. -/
def altCapWord (cs : List Char) : Option Nat :=
  match cs with
  | [] => none
  | c :: rest =>
    if upperB c then
      let m := lowerRun rest
      if m = 0 then none
      else if stopOk (rest.drop m) then some (1 + m) else none
    else if lowerB c then
      let m := lowerRun (c :: rest)
      if stopOk ((c :: rest).drop m) then some m else none
    else none

/-- Regex `_ALL_CAPS_SEQUENCE = [A-Z]{2,}`. -/
def altAllCaps (cs : List Char) : Option Nat :=
  let k := upperRun cs
  if 2 ≤ k then some k else none

/-- Regex `_SINGLE_UPPERCASE = [A-Z]`. -/
def altSingleUpper (cs : List Char) : Option Nat :=
  match cs with
  | [] => none
  | c :: _ => if upperB c then some 1 else none

/-- Regex `_DIGITS = \d+`. -/
def altDigits (cs : List Char) : Option Nat :=
  let d := digitRun cs
  if d = 0 then none else some d

/-- The punctuation-atom alternatives. -/
def altSpecial (cs : List Char) : Option Nat :=
  match cs with
  | [] => none
  | c :: _ => if isTokSpecial c then some 1 else none

/-- Length matched by `_TOKEN_PATTERN` at the current position (`prev` is
the character immediately before the position, for the lookbehind of
`_SINGLE_CAP_NUMBER`); `none` if no alternative matches.  Alternatives are
tried in the source's order, first match wins. -/
def matchLen (prev : Option Char) (cs : List Char) : Option Nat :=
  match altAcronym cs with
  | some n => some n
  | none =>
  match altSingleCapNum prev cs with
  | some n => some n
  | none =>
  match altDecimal cs with
  | some n => some n
  | none =>
  match altCapWord cs with
  | some n => some n
  | none =>
  match altAllCaps cs with
  | some n => some n
  | none =>
  match altSingleUpper cs with
  | some n => some n
  | none =>
  match altDigits cs with
  | some n => some n
  | none => altSpecial cs

/-- The `finditer` scan of `tokenize_pascal_case`: `pending` is the
(reversed) buffer of characters not matched by any pattern, flushed as a
verbatim token before each match and at the end.  Fueled (one unit per
step; each step consumes at least one character, so fuel `cs.length`
suffices; on exhaustion the remaining input is flushed, which is
unreachable with that fuel). -/
def scanAuxF : Nat → List Char → Option Char → List Char → List (List Char)
  | _, pending, _, [] => if pending.isEmpty then [] else [pending.reverse]
  | 0, pending, _, cs => if pending.isEmpty then [cs] else [pending.reverse, cs]
  | fuel + 1, pending, prev, c :: rest =>
    match matchLen prev (c :: rest) with
    | none => scanAuxF fuel (c :: pending) (some c) rest
    | some n =>
      let tok := (c :: rest).take n
      (if pending.isEmpty then [tok] else [pending.reverse, tok])
        ++ scanAuxF fuel [] tok.getLast? ((c :: rest).drop n)

/-- Source `tokenize_pascal_case` at the `List Char` level. -/
def tokenizePC (cs : List Char) : List (List Char) :=
  scanAuxF cs.length [] none cs

/-- Source `tokenize_pascal_case(value: str) -> List[str]`. -/
def tokenize_pascal_case (s : String) : List String :=
  (tokenizePC s.data).map String.mk

/-! ## Python `str` level predicates used by the formatter, merger and
spacing engine (`str.isdigit`, `str.islower`, `str.isupper`,
`_is_numeric_token`, `_is_alphanumeric_token`; ASCII model). -/

/-- Python `token.isdigit()`: nonempty and all characters digits. -/
def pyIsDigit (t : List Char) : Bool := !t.isEmpty && t.all digitB

/-- Python `token.islower()`: at least one cased character, and every
cased character lowercase. -/
def pyIsLower (t : List Char) : Bool :=
  t.any casedB && t.all (fun c => !casedB c || lowerB c)

/-- Python `token.isupper()`: at least one cased character, and every
cased character uppercase. -/
def pyIsUpper (t : List Char) : Bool :=
  t.any casedB && t.all (fun c => !casedB c || upperB c)

/-- Python `re.match(r"^\d+(?:\.\d+)+$", token)`: full-string decimal shape.
Backtracking cannot help the anchored pattern, so maximal-munch digit runs
and dot groups are exact. -/
def isDecimalShape (t : List Char) : Bool :=
  let d := digitRun t
  if d = 0 then false
  else
    let r := t.drop d
    !r.isEmpty && decide (decGroupsLen r = r.length)

/-- Source `_is_numeric_token`. -/
def isNumericTok (t : List Char) : Bool := pyIsDigit t || isDecimalShape t

/-- Source `_is_alphanumeric_token`: nonempty and first character a letter. -/
def isAlphaNumTok (t : List Char) : Bool :=
  match t with
  | [] => false
  | c :: _ => alphaB c

/-! ## `_format_token` -/

/-- Exact single-character membership in the special-token tuple of
`_format_token` (same 14 characters as the tokenizer's atoms). -/
def isSpecialTokStr (t : List Char) : Bool :=
  match t with
  | [c] => isTokSpecial c
  | _ => false

/-- Python `re.match(r"^[A-Z]\d", token)`. -/
def capDigitPrefix (t : List Char) : Bool :=
  match t with
  | a :: b :: _ => upperB a && digitB b
  | _ => false

/-- Source `_format_token(token: str) -> str`. -/
def format_token (t : List Char) : List Char :=
  match t with
  | [] => []
  | c :: rest =>
    if isSpecialTokStr (c :: rest) then c :: rest
    else if pyIsUpper (c :: rest) then c :: rest
    else if pyIsLower (c :: rest) then c :: rest
    else if capDigitPrefix (c :: rest) then c :: rest
    else charUpper c :: rest.map charLower

/-! ## Digit + lowercase merge pass (the `while i < len(segment_tokens)`
loop inside `format_pascal_words`) -/

/-- The merge loop, literal translation of the indexed `while` loop:
`i` is the scan index; fuel decreases by one per iteration (the index
advances by at least one, so fuel `ts.length` suffices). -/
def mergeLoopF : Nat → List (List Char) → Nat → List (List Char × Bool)
  | 0, _, _ => []
  | fuel + 1, ts, i =>
    if i < ts.length then
      let cur := ts.getD i []
      if pyIsDigit cur = true ∧ i + 1 < ts.length ∧ pyIsLower (ts.getD (i + 1) []) = true then
        (cur ++ ts.getD (i + 1) [], true) :: mergeLoopF fuel ts (i + 2)
      else
        (cur, false) :: mergeLoopF fuel ts (i + 1)
    else []

/-- The merge pass over one segment's token list. -/
def mergeTokens (ts : List (List Char)) : List (List Char × Bool) :=
  mergeLoopF ts.length ts 0

/-! ## Per-segment formatting inside `format_pascal_words` -/

/-- Python `segment and segment[0].islower()` (single-character `islower`). -/
def segHeadIsLower : List Char → Bool
  | [] => false
  | c :: _ => lowerB c

/-- Tokenize one underscore-delimited segment, run the merge pass, and
apply the per-segment casing rule: a lowercase-led segment keeps every
token verbatim; otherwise merged tokens are preserved and the rest go
through `_format_token`. -/
def formatSegment (seg : List Char) : List (List Char) :=
  let merged := mergeTokens (tokenizePC seg)
  if segHeadIsLower seg then
    merged.map Prod.fst
  else
    merged.map (fun p => if p.2 then p.1 else format_token p.1)

/-! ## Spacing engine (`apply_spacing_rules`) -/

/-- Set `NO_SPACE = {"*", "@", "'"}` as exact token equality. -/
def isNoSpaceTok (t : List Char) : Bool :=
  match t with
  | [c] => c == '*' || c == '@' || c == apostropheChar
  | _ => false

/-- Set `TRAILING_SPACE = {"!", "?", ",", ";", ")", "]", "}"}`. -/
def isTrailingTok (t : List Char) : Bool :=
  match t with
  | [c] => ['!', '?', ',', ';', ')', ']', '}'].contains c
  | _ => false

/-- Set `LEADING_SPACE = {"(", "{", "["}`. -/
def isLeadingTok (t : List Char) : Bool :=
  match t with
  | [c] => ['(', '{', '['].contains c
  | _ => false

/-- The `needs_space_before` decision of `apply_spacing_rules` (`prev` is
`tokens[i-1]` when it exists). -/
def needsSpaceBefore (prev : Option (List Char)) (tok : List Char) : Bool :=
  match prev with
  | none => false
  | some p =>
    if isNoSpaceTok tok then false
    else if isTrailingTok tok then false
    else if tok = ['$'] then !isNumericTok p && isAlphaNumTok p
    else if tok = ['%'] then !isNumericTok p && isAlphaNumTok p
    else if isLeadingTok tok then isAlphaNumTok p
    else if isNoSpaceTok p then false
    else if isTrailingTok p then false
    else if isLeadingTok p then false
    else if p = ['$'] && isNumericTok tok then false
    else if p = ['%'] then false
    else true

/-- The `needs_space_after` decision of `apply_spacing_rules` (`next` is
`tokens[i+1]` when it exists).  For `"$"` both branches of the source
leave the flag `False`. -/
def needsSpaceAfter (tok : List Char) (next : Option (List Char)) : Bool :=
  match next with
  | none => false
  | some nx =>
    if isNoSpaceTok tok then false
    else if tok = ['$'] then false
    else if tok = ['%'] then isAlphaNumTok nx
    else if isTrailingTok tok then !isNoSpaceTok nx
    else false

/-- The indexed loop of `apply_spacing_rules`, as a fold carrying the
previous token: each output token is the input token with its spacing
baked in. -/
def spaceGo (prev : Option (List Char)) : List (List Char) → List (List Char)
  | [] => []
  | t :: rest =>
    ((if needsSpaceBefore prev t then [' '] else []) ++ t ++
      (if needsSpaceAfter t rest.head? then [' '] else []))
      :: spaceGo (some t) rest

/-- Source `apply_spacing_rules(tokens)`: filter out empty tokens, then decide
spacing per token. -/
def apply_spacing_rules (ts : List (List Char)) : List (List Char) :=
  spaceGo none (ts.filter (fun t => !t.isEmpty))

/-! ## `format_pascal_words` and the orchestration layer -/

/-- Python `value.split("_")` (all occurrences, empty pieces kept). -/
def splitUnderscore : List Char → List (List Char)
  | [] => [[]]
  | c :: rest =>
    let r := splitUnderscore rest
    if c = '_' then [] :: r
    else (c :: r.headD []) :: r.tail

/-- Python `str.strip()` whitespace (ASCII part). -/
def isPySpace (c : Char) : Bool :=
  [' ', '\t', '\n', '\r', '\x0b', '\x0c'].contains c

/-- Python `str.strip()`. -/
def stripBoth (cs : List Char) : List Char :=
  ((cs.dropWhile isPySpace).reverse.dropWhile isPySpace).reverse

/-- Source `format_pascal_words` at the `List Char` level. -/
def formatPW (cs : List Char) : List Char :=
  if cs.isEmpty then []
  else
    let segments := (splitUnderscore cs).filter (fun s => !s.isEmpty)
    let toks := (segments.map formatSegment).flatten
    stripBoth (apply_spacing_rules toks).flatten

/-- Source `format_pascal_words(value: str) -> str`. -/
def format_pascal_words (s : String) : String := String.mk (formatPW s.data)

/-! ## Basename normalization (`_normalize_basename` and helpers) -/

/-- Source `sanitize_forbidden_characters`: replace `:` and `\` by `_`
(single-character replacement, hence a map). -/
def sanitizeForbidden (cs : List Char) : List Char :=
  cs.map (fun c => if c = ':' || c = '\\' then '_' else c)

/-- Python `os.path.basename` (POSIX): the part after the last `/`. -/
def posixBasename (cs : List Char) : List Char :=
  (cs.reverse.takeWhile (fun c => c != '/')).reverse

def cff2Pat : List Char := ['.', 'C', 'F', 'F', '2', '.']

/-- Python `".CFF2." in candidate`. -/
def containsCFF2 (cs : List Char) : Bool :=
  cff2Pat.isPrefixOf cs ||
    match cs with
    | [] => false
    | _ :: r => containsCFF2 r

/-- Python `candidate.replace(".CFF2.", ".")`: non-overlapping left-to-right
replacement.  Fueled by the length (each step consumes ≥ 1 character). -/
def replaceCFF2F : Nat → List Char → List Char
  | 0, cs => cs
  | fuel + 1, cs =>
    match cs with
    | [] => []
    | c :: r =>
      if cff2Pat.isPrefixOf (c :: r) then '.' :: replaceCFF2F fuel ((c :: r).drop 6)
      else c :: replaceCFF2F fuel r

def replaceCFF2 (cs : List Char) : List Char := replaceCFF2F cs.length cs

/-- Python `candidate.endswith(".CFF2")`. -/
def endsCFF2 (cs : List Char) : Bool := ['.', 'C', 'F', 'F', '2'].isSuffixOf cs

/-- The CFF2-marker removal step of `_normalize_basename`. -/
def cff2Fix (cs : List Char) : List Char :=
  if containsCFF2 cs then replaceCFF2 cs
  else if endsCFF2 cs then cs.take (cs.length - 5)
  else cs

/-- Python `os.path.splitext(candidate)[0]` (POSIX, on a name with no `/`):
split at the last dot unless every character before it is a dot. -/
def splitextStem (cs : List Char) : List Char :=
  if cs.contains '.' then
    let after := cs.reverse.takeWhile (fun c => c != '.')
    let d := cs.length - after.length - 1
    let pre := cs.take d
    if pre.all (fun c => c = '.') then cs else pre
  else cs

/-- Source `_normalize_basename(input_name, strip_extension)` at the `List Char`
level. -/
def normalizeBasename (cs : List Char) (stripExtension : Bool) : List Char :=
  let candidate := cff2Fix (sanitizeForbidden (posixBasename cs))
  if stripExtension then splitextStem candidate else candidate

/-- Source `_normalize_basename` at the `String` level. -/
def normalize_basename (s : String) (stripExtension : Bool) : String :=
  String.mk (normalizeBasename s.data stripExtension)

/-- Source `_split_at_hyphen(base)`: split at the first hyphen only. -/
def splitAtHyphen (cs : List Char) : List Char × List Char :=
  if cs.contains '-' then
    (cs.takeWhile (fun c => c != '-'), (cs.dropWhile (fun c => c != '-')).drop 1)
  else (cs, [])

/-- Source `split_family_subfamily(input_name, strip_extension)`. -/
def split_family_subfamily (s : String) (stripExtension : Bool) : String × String :=
  let base := normalizeBasename s.data stripExtension
  let l := (splitAtHyphen base).1
  let r := (splitAtHyphen base).2
  (String.mk (formatPW l), if r.isEmpty then "" else String.mk (formatPW r))

/-- Source `family_from_filename`. -/
def family_from_filename (s : String) (stripExtension : Bool) : String :=
  (split_family_subfamily s stripExtension).1

/-- Source `subfamily_from_filename`. -/
def subfamily_from_filename (s : String) (stripExtension : Bool) : String :=
  (split_family_subfamily s stripExtension).2

/-- The `ParsedName` dataclass. -/
structure ParsedName where
  original : String
  base : String
  family_raw : String
  subfamily_raw : String
  family : String
  subfamily : String
  deriving DecidableEq, Repr

/-- Source `parse_filename(input_name, strip_extension)`. -/
def parse_filename (s : String) (stripExtension : Bool) : ParsedName :=
  let base := normalizeBasename s.data stripExtension
  let l := (splitAtHyphen base).1
  let r := (splitAtHyphen base).2
  { original := s
    base := String.mk base
    family_raw := String.mk l
    subfamily_raw := String.mk r
    family := String.mk (formatPW l)
    subfamily := if r.isEmpty then "" else String.mk (formatPW r) }

/-- Literally "purely lowercase letters" in the claim's literal sense: nonempty and
every character a lowercase ASCII letter. -/
def isAllLowercaseLetters (t : List Char) : Bool := !t.isEmpty && t.all lowerB


/-- No two consecutive spaces, as an adjacency relation. -/
abbrev noDoubleSpace (a b : Char) : Prop := ¬(a = ' ' ∧ b = ' ')


/-- Executable test for two adjacent spaces. -/
def hasDoubleSpace : List Char → Bool
  | a :: b :: rest => (a == ' ' && b == ' ') || hasDoubleSpace (b :: rest)
  | _ => false


/-! ## Doctest examples of the module, reproduced by the embedding -/

example : tokenize_pascal_case "XMLHttp" = ["XML", "Http"] := by decide
example : tokenize_pascal_case "KWAKGrotesk" = ["KWAK", "Grotesk"] := by decide
example : tokenize_pascal_case "UIUXKit" = ["UIUX", "Kit"] := by decide
example : tokenize_pascal_case "ABCD" = ["ABCD"] := by decide
example : tokenize_pascal_case "35mm50px" = ["35", "mm", "50", "px"] := by decide
example : tokenize_pascal_case "35a." = ["35", "a."] := by decide
example : tokenize_pascal_case "Price$19.99" = ["Price", "$", "19.99"] := by decide
example : tokenize_pascal_case "G1" = ["G1"] := by decide
example : tokenize_pascal_case "B1.2.3" = ["B1.2.3"] := by decide
example : tokenize_pascal_case "FitU&lc" = ["Fit", "U", "&", "lc"] := by decide
example : tokenize_pascal_case "a b" = ["a ", "b"] := by decide

example : format_pascal_words "QueenSansExtra" = "Queen Sans Extra" := by decide
example : format_pascal_words "UIUXKit" = "UIUX Kit" := by decide
example : format_pascal_words "ABCD" = "ABCD" := by decide
example : format_pascal_words "35mm" = "35mm" := by decide
example : format_pascal_words "35mm50px" = "35mm 50px" := by decide
example : format_pascal_words "35a." = "35a." := by decide
example : format_pascal_words "Price$19.99" = "Price $19.99" := by decide
example : format_pascal_words "100%Success" = "100% Success" := by decide
example : format_pascal_words "50%" = "50%" := by decide
example : format_pascal_words "Price19.99$" = "Price 19.99$" := by decide
example : format_pascal_words "$100" = "$100" := by decide
example : format_pascal_words "oook" = "oook" := by decide
example : format_pascal_words "ABC_EFGRegular" = "ABC EFG Regular" := by decide
example : format_pascal_words "_ABC_EFG_" = "ABC EFG" := by decide
example : format_pascal_words "ABC_oook" = "ABC oook" := by decide
example : format_pascal_words "oookABC" = "oook ABC" := by decide
example : format_pascal_words "FitU&lc" = "Fit U & lc" := by decide
example : format_pascal_words "Condensed&Wide" = "Condensed & Wide" := by decide
example : format_pascal_words "Font!Name" = "Font! Name" := by decide
example : format_pascal_words "Font!NameRegular" = "Font! Name Regular" := by decide
example : format_pascal_words "ABC_EFG!" = "ABC EFG!" := by decide
example : format_pascal_words "Font!_Name" = "Font! Name" := by decide
example : format_pascal_words "Font*Name" = "Font*Name" := by decide
example : format_pascal_words "Font*NameRegular" = "Font*Name Regular" := by decide
example : format_pascal_words "ABC_EFG*" = "ABC EFG*" := by decide
example : format_pascal_words "Font(Condensed" = "Font (Condensed" := by decide
example : format_pascal_words "Font\x7bCondensed" = "Font \x7bCondensed" := by decide
example : format_pascal_words "Font[Condensed" = "Font [Condensed" := by decide
example : format_pascal_words "a b" = "a  b" := by decide
example : split_family_subfamily "QueenSansExtra-ExtralightItalic" true
    = ("Queen Sans Extra", "Extralight Italic") := by decide
example : split_family_subfamily "NoHyphenName" true = ("No Hyphen Name", "") := by decide
example : split_family_subfamily "oook-Regular" true = ("oook", "Regular") := by decide
example : split_family_subfamily "OTMissouri-35mm" true = ("OT Missouri", "35mm") := by decide
example : split_family_subfamily "Helvetica-Regular.CFF2.otf" true
    = ("Helvetica", "Regular") := by decide
example : split_family_subfamily "Arial-Bold.CFF2.ttf" true = ("Arial", "Bold") := by decide
example : split_family_subfamily "Font:Name.ttf" true = ("Font Name", "") := by decide
example : split_family_subfamily "Font\\Name.ttf" true = ("Font Name", "") := by decide
example : split_family_subfamily "Cougar-Condensed&SuperWide" true
    = ("Cougar", "Condensed & Super Wide") := by decide
example : split_family_subfamily "ABC_EFG-Regular" true = ("ABC EFG", "Regular") := by decide
example : split_family_subfamily "Font!Name-Bold" true = ("Font! Name", "Bold") := by decide
example : split_family_subfamily "Font*Name-Bold" true = ("Font*Name", "Bold") := by decide
example : split_family_subfamily "FitU&lc-ExtraWide" true = ("Fit U & lc", "Extra Wide") := by decide
example : family_from_filename "KWAKGrotesk-ExtraBold" true = "KWAK Grotesk" := by decide

/-! ## Character-class facts -/

theorem lowerB_of_upperB {c : Char} (h : upperB c = true) : lowerB c = false := by
  simp only [upperB, lowerB, decide_eq_true_eq, decide_eq_false_iff_not] at *
  omega

theorem upperB_of_lowerB {c : Char} (h : lowerB c = true) : upperB c = false := by
  simp only [upperB, lowerB, decide_eq_true_eq, decide_eq_false_iff_not] at *
  omega

theorem digitB_of_upperB {c : Char} (h : upperB c = true) : digitB c = false := by
  simp only [upperB, digitB, decide_eq_true_eq, decide_eq_false_iff_not] at *
  omega

theorem digitB_of_lowerB {c : Char} (h : lowerB c = true) : digitB c = false := by
  simp only [lowerB, digitB, decide_eq_true_eq, decide_eq_false_iff_not] at *
  omega

theorem charUpper_ne_space {c : Char} (h : c ≠ ' ') : charUpper c ≠ ' ' := by
  unfold charUpper
  cases hf : upperPairs.find? (fun p => p.1 == c) with
  | none => exact h
  | some p =>
    have hp : p ∈ upperPairs := List.mem_of_find?_eq_some hf
    have hall : ∀ q ∈ upperPairs, q.2 ≠ ' ' := by decide
    exact hall p hp

theorem charLower_ne_space {c : Char} (h : c ≠ ' ') : charLower c ≠ ' ' := by
  unfold charLower
  cases hf : upperPairs.find? (fun p => p.2 == c) with
  | none => exact h
  | some p =>
    have hp : p ∈ upperPairs := List.mem_of_find?_eq_some hf
    have hall : ∀ q ∈ upperPairs, q.1 ≠ ' ' := by decide
    exact hall p hp

/-! ## Losslessness of the tokenizer scan -/

theorem scanAuxF_flatten :
    ∀ (fuel : Nat) (pending : List Char) (prev : Option Char) (cs : List Char),
    (scanAuxF fuel pending prev cs).flatten = pending.reverse ++ cs := by
  intro fuel
  induction fuel with
  | zero =>
    intro pending prev cs
    cases cs <;> cases pending <;> simp [scanAuxF]
  | succ fuel ih =>
    intro pending prev cs
    cases cs with
    | nil => cases pending <;> simp [scanAuxF]
    | cons c rest =>
      cases h : matchLen prev (c :: rest) with
      | none =>
        simp only [scanAuxF, h]
        rw [ih]
        simp
      | some n =>
        simp only [scanAuxF, h]
        cases pending <;>
          simp [ih, List.take_append_drop]

/-- The tokens of `tokenizePC` concatenate to the input. -/
theorem tokenizePC_flatten (cs : List Char) : (tokenizePC cs).flatten = cs := by
  simpa using scanAuxF_flatten cs.length [] none cs

theorem foldl_append_map_mk :
    ∀ (ls : List (List Char)) (acc : String),
    List.foldl (· ++ ·) acc (ls.map String.mk) = acc ++ String.mk ls.flatten := by
  intro ls
  induction ls with
  | nil =>
    intro acc
    apply String.ext
    simp [String.data_append]
  | cons t ts ih =>
    intro acc
    simp only [List.map_cons, List.foldl_cons]
    rw [ih]
    apply String.ext
    simp [String.data_append]

theorem string_join_map_mk (ls : List (List Char)) :
    String.join (ls.map String.mk) = String.mk ls.flatten := by
  have h := foldl_append_map_mk ls ""
  have : String.join (ls.map String.mk) = List.foldl (· ++ ·) "" (ls.map String.mk) := rfl
  rw [this, h]
  apply String.ext
  simp [String.data_append]

/-- Claim C1. For every string `s`, concatenating the elements of
`tokenize_pascal_case s` in order with no separator yields `s` exactly:
every span not matched by any tokenizer pattern is emitted verbatim, so
tokenization is lossless. -/
theorem tokenize_pascal_case_lossless (s : String) :
    String.join (tokenize_pascal_case s) = s := by
  unfold tokenize_pascal_case
  rw [string_join_map_mk, tokenizePC_flatten]

/-! ## `parse_filename` agrees with `split_family_subfamily` -/

/-- Claim C9. For every string `s` and every `strip_extension` flag,
`parse_filename` returns a `ParsedName` whose `family`/`subfamily` equal
the components of `split_family_subfamily`, and whose `family` is
`format_pascal_words` of its own `family_raw`: both entry points implement
the same transform. -/
theorem parse_filename_refines_split (s : String) (stripExtension : Bool) :
    (parse_filename s stripExtension).family
        = (split_family_subfamily s stripExtension).1 ∧
    (parse_filename s stripExtension).subfamily
        = (split_family_subfamily s stripExtension).2 ∧
    (parse_filename s stripExtension).family
        = format_pascal_words (parse_filename s stripExtension).family_raw :=
  ⟨rfl, rfl, rfl⟩

/-! ## Total, non-raising behaviour on degenerate inputs

Every definition above is a total Lean function translated from the
Python control flow (whose partial accesses are all guarded), so the
entry points produce a value for every input; the theorem checks the
specified boundary outputs. -/

/-- Claim C8. The entry points return normally on every string (totality is
by construction of the embedding — witnessed here by the `original` field
round-trip holding for all inputs); on the empty string
`format_pascal_words` returns `""` and `split_family_subfamily` returns
`("", "")`; punctuation-only and non-ASCII inputs pass through. -/
theorem entry_points_total_boundary :
    format_pascal_words "" = "" ∧
    split_family_subfamily "" true = ("", "") ∧
    parse_filename "" true = ⟨"", "", "", "", "", ""⟩ ∧
    (∀ s : String, (parse_filename s true).original = s) ∧
    format_pascal_words "..." = "..." ∧
    format_pascal_words "…" = "…" :=
  ⟨by decide, by decide, by decide, fun _ => rfl, by decide, by decide⟩

/-! ## `.CFF2` marker removal in `_normalize_basename` -/

theorem replaceCFF2F_of_not_contains :
    ∀ (fuel : Nat) (cs : List Char), containsCFF2 cs = false →
    replaceCFF2F fuel cs = cs := by
  intro fuel
  induction fuel with
  | zero => intro cs _; rfl
  | succ fuel ih =>
    intro cs h
    cases cs with
    | nil => rfl
    | cons c r =>
      rw [containsCFF2] at h
      simp only [Bool.or_eq_false_iff] at h
      simp only [replaceCFF2F, h.1, Bool.false_eq_true, if_false]
      rw [ih r h.2]

/-- Claim C6. Basename normalization: an occurrence of `".CFF2."` triggers
the replace-by-`"."` path and otherwise a trailing `".CFF2"` is dropped;
when neither occurs the replacement is the identity; both happen before
extension stripping; consequently
`split_family_subfamily "Helvetica-Regular.CFF2.otf" = ("Helvetica", "Regular")`. -/
theorem cff2_normalization :
    (∀ cs : List Char, containsCFF2 cs = true → cff2Fix cs = replaceCFF2 cs) ∧
    (∀ cs : List Char, containsCFF2 cs = false → endsCFF2 cs = true →
      cff2Fix cs = cs.take (cs.length - 5)) ∧
    (∀ cs : List Char, containsCFF2 cs = false → replaceCFF2 cs = cs) ∧
    (∀ (cs : List Char) (stripExtension : Bool),
      normalizeBasename cs stripExtension =
        (if stripExtension then
          splitextStem (cff2Fix (sanitizeForbidden (posixBasename cs)))
         else cff2Fix (sanitizeForbidden (posixBasename cs)))) ∧
    split_family_subfamily "Helvetica-Regular.CFF2.otf" true = ("Helvetica", "Regular") := by
  refine ⟨?_, ?_, ?_, ?_, by decide⟩
  · intro cs h
    simp [cff2Fix, h]
  · intro cs h1 h2
    simp [cff2Fix, h1, h2]
  · intro cs h
    exact replaceCFF2F_of_not_contains cs.length cs h
  · intro cs stripExtension
    cases stripExtension <;> rfl

/-- Witness for C6 at concrete inputs. -/
theorem cff2_normalization_witness :
    cff2Fix "A.CFF2.otf".data = replaceCFF2 "A.CFF2.otf".data ∧
    cff2Fix "B.CFF2".data = "B.CFF2".data.take ("B.CFF2".data.length - 5) ∧
    replaceCFF2 "Arial.otf".data = "Arial.otf".data :=
  ⟨cff2_normalization.1 _ (by decide),
   cff2_normalization.2.1 _ (by decide) (by decide),
   cff2_normalization.2.2.1 _ (by decide)⟩

/-! ## The digit+lowercase merge loop: structural characterization -/

theorem mergeLoopF_congr :
    ∀ (f g : Nat) (ts : List (List Char)) (i : Nat),
    ts.length - i ≤ f → ts.length - i ≤ g →
    mergeLoopF f ts i = mergeLoopF g ts i := by
  intro f
  induction f with
  | zero =>
    intro g ts i hf hg
    cases g with
    | zero => rfl
    | succ g =>
      have : ¬ i < ts.length := by omega
      simp [mergeLoopF, this]
  | succ f ih =>
    intro g ts i hf hg
    cases g with
    | zero =>
      have : ¬ i < ts.length := by omega
      simp [mergeLoopF, this]
    | succ g =>
      by_cases hi : i < ts.length
      · simp only [mergeLoopF, hi, if_true]
        split
        · rw [ih g ts (i + 2) (by omega) (by omega)]
        · rw [ih g ts (i + 1) (by omega) (by omega)]
      · simp [mergeLoopF, hi]

theorem mergeLoopF_step (f : Nat) (ts : List (List Char)) (i : Nat) :
    mergeLoopF (f + 1) ts i =
      if i < ts.length then
        (if pyIsDigit (ts.getD i []) = true ∧ i + 1 < ts.length ∧
            pyIsLower (ts.getD (i + 1) []) = true then
          (ts.getD i [] ++ ts.getD (i + 1) [], true) :: mergeLoopF f ts (i + 2)
        else (ts.getD i [], false) :: mergeLoopF f ts (i + 1))
      else [] := rfl

theorem mergeLoopF_shift :
    ∀ (f : Nat) (t : List Char) (ts : List (List Char)) (i : Nat),
    mergeLoopF f (t :: ts) (i + 1) = mergeLoopF f ts i := by
  intro f
  induction f with
  | zero => intro t ts i; rfl
  | succ f ih =>
    intro t ts i
    rw [mergeLoopF_step, mergeLoopF_step]
    simp only [List.length_cons, List.getD_cons_succ, Nat.add_lt_add_iff_right]
    by_cases hi : i < ts.length
    · simp only [hi, if_true]
      split
      · rw [show i + 1 + 2 = (i + 2) + 1 by omega, ih]
      · rw [ih]
    · simp [hi]

theorem mergeLoopF_zero (ts : List (List Char)) (i : Nat) : mergeLoopF 0 ts i = [] := rfl

theorem mergeTokens_nil : mergeTokens [] = [] := rfl

theorem mergeTokens_single (t : List Char) : mergeTokens [t] = [(t, false)] := by
  show mergeLoopF (0 + 1) [t] 0 = [(t, false)]
  rw [mergeLoopF_step]
  simp [mergeLoopF_zero]

theorem mergeTokens_cons_cons_pos (t u : List Char) (rest : List (List Char))
    (h1 : pyIsDigit t = true) (h2 : pyIsLower u = true) :
    mergeTokens (t :: u :: rest) = (t ++ u, true) :: mergeTokens rest := by
  have hcond : pyIsDigit ((t :: u :: rest).getD 0 []) = true ∧
      0 + 1 < (t :: u :: rest).length ∧
      pyIsLower ((t :: u :: rest).getD (0 + 1) []) = true :=
    ⟨h1, by simp, h2⟩
  show mergeLoopF (t :: u :: rest).length (t :: u :: rest) 0 = _
  rw [show (t :: u :: rest).length = (rest.length + 1) + 1 by simp]
  rw [mergeLoopF_step, if_pos (by simp : 0 < (t :: u :: rest).length), if_pos hcond]
  rw [show (0 : Nat) + 2 = 1 + 1 from rfl]
  rw [mergeLoopF_shift (rest.length + 1) t (u :: rest) 1]
  rw [show (1 : Nat) = 0 + 1 from rfl]
  rw [mergeLoopF_shift (rest.length + 1) u rest 0]
  rw [mergeLoopF_congr (rest.length + 1) rest.length rest 0 (by omega) (by omega)]
  rfl

theorem mergeTokens_cons_cons_neg (t u : List Char) (rest : List (List Char))
    (h : ¬(pyIsDigit t = true ∧ pyIsLower u = true)) :
    mergeTokens (t :: u :: rest) = (t, false) :: mergeTokens (u :: rest) := by
  have hcond : ¬(pyIsDigit ((t :: u :: rest).getD 0 []) = true ∧
      0 + 1 < (t :: u :: rest).length ∧
      pyIsLower ((t :: u :: rest).getD (0 + 1) []) = true) := by
    intro hc
    exact h ⟨hc.1, hc.2.2⟩
  show mergeLoopF (t :: u :: rest).length (t :: u :: rest) 0 = _
  rw [show (t :: u :: rest).length = (rest.length + 1) + 1 by simp]
  rw [mergeLoopF_step, if_pos (by simp : 0 < (t :: u :: rest).length), if_neg hcond]
  rw [mergeLoopF_shift (rest.length + 1) t (u :: rest) 0]
  rw [mergeLoopF_congr (rest.length + 1) (u :: rest).length (u :: rest) 0 (by simp) (by simp)]
  rfl

theorem mergeTokens_flatten_aux :
    ∀ (n : Nat) (ts : List (List Char)), ts.length ≤ n →
    ((mergeTokens ts).map Prod.fst).flatten = ts.flatten := by
  intro n
  induction n with
  | zero =>
    intro ts h
    have : ts = [] := List.length_eq_zero.mp (by omega)
    subst this
    rfl
  | succ n ih =>
    intro ts h
    match ts with
    | [] => rfl
    | [t] => simp [mergeTokens_single]
    | t :: u :: rest =>
      by_cases hc : pyIsDigit t = true ∧ pyIsLower u = true
      · rw [mergeTokens_cons_cons_pos t u rest hc.1 hc.2]
        simp only [List.map_cons, List.flatten_cons]
        rw [ih rest (by simp at h ⊢; omega)]
        simp
      · rw [mergeTokens_cons_cons_neg t u rest hc]
        simp only [List.map_cons, List.flatten_cons]
        rw [ih (u :: rest) (by simp at h ⊢; omega)]
        simp

/-- The merge pass never loses characters: the merged texts concatenate
to the concatenation of the input tokens. -/
theorem mergeTokens_flatten (ts : List (List Char)) :
    ((mergeTokens ts).map Prod.fst).flatten = ts.flatten :=
  mergeTokens_flatten_aux ts.length ts (Nat.le_refl _)

/-! ## Lowercase-led segments are emitted verbatim -/

/-- Claim C3. If an underscore-delimited segment starts with a lowercase
letter, the per-segment formatting emits exactly the merged token texts
with no case transformation — every token of the segment keeps its
original casing, and the segment is reproduced byte-for-byte (the
emitted tokens concatenate to the segment). -/
theorem lowercase_segment_verbatim (seg : List Char)
    (h : segHeadIsLower seg = true) :
    formatSegment seg = (mergeTokens (tokenizePC seg)).map Prod.fst ∧
    (formatSegment seg).flatten = seg := by
  constructor
  · simp [formatSegment, h]
  · simp only [formatSegment, h, if_true]
    rw [mergeTokens_flatten, tokenizePC_flatten]

/-- Witness for C3 at the segment `"oook"` (and a mixed one, `"35mm"`-style
lowercase-led `"x35mm"`). -/
theorem lowercase_segment_verbatim_witness :
    (formatSegment "oook".data = (mergeTokens (tokenizePC "oook".data)).map Prod.fst ∧
      (formatSegment "oook".data).flatten = "oook".data) ∧
    (formatSegment "abC".data = (mergeTokens (tokenizePC "abC".data)).map Prod.fst ∧
      (formatSegment "abC".data).flatten = "abC".data) :=
  ⟨lowercase_segment_verbatim _ (by decide), lowercase_segment_verbatim _ (by decide)⟩

/-! ## The merge condition is Python `islower`, and merges are single-pass -/

/-- Claim C4, counterexample. The merge fires although the token following
the digit run is `"a."`, which is *not* purely lowercase letters (the
source tests Python `str.islower`, true for `"a."`): on input `"35a."`
the tokens are `["35", "a."]`, the pass merges them into one preserved
unit, and `format_pascal_words "35a." = "35a."` — where the claim as
stated would leave `"35"` alone and produce `"35 a."`. -/
theorem merge_not_purely_lowercase_counterexample :
    tokenize_pascal_case "35a." = ["35", "a."] ∧
    isAllLowercaseLetters "a.".data = false ∧
    mergeTokens (tokenizePC "35a.".data) = [("35a.".data, true)] ∧
    format_pascal_words "35a." = "35a." ∧
    format_pascal_words "35a." ≠ "35 a." := by
  refine ⟨by decide, by decide, by decide, by decide, by decide⟩

/-- Claim C4, amended. The merge pass scans the segment's token list left
to right exactly once: when the current token is purely digits and the
immediately following token satisfies Python `islower` (it has a cased
character and no uppercase one), their texts are concatenated into one
unit flagged as never-re-cased and both tokens are consumed — a merged
pair never takes part in another merge; otherwise the current token alone
is passed on.  In particular `format_pascal_words "35mm" = "35mm"` and
`format_pascal_words "35mm50px" = "35mm 50px"`. -/
theorem merge_pass_characterization :
    (∀ (t u : List Char) (rest : List (List Char)),
      pyIsDigit t = true → pyIsLower u = true →
      mergeTokens (t :: u :: rest) = (t ++ u, true) :: mergeTokens rest) ∧
    (∀ (t u : List Char) (rest : List (List Char)),
      ¬(pyIsDigit t = true ∧ pyIsLower u = true) →
      mergeTokens (t :: u :: rest) = (t, false) :: mergeTokens (u :: rest)) ∧
    (∀ t : List Char, mergeTokens [t] = [(t, false)]) ∧
    mergeTokens [] = [] ∧
    format_pascal_words "35mm" = "35mm" ∧
    format_pascal_words "35mm50px" = "35mm 50px" :=
  ⟨fun t u rest h1 h2 => mergeTokens_cons_cons_pos t u rest h1 h2,
   fun t u rest h => mergeTokens_cons_cons_neg t u rest h,
   mergeTokens_single, mergeTokens_nil, by decide, by decide⟩

/-- Witness for C4 at concrete token lists. -/
theorem merge_pass_characterization_witness :
    mergeTokens ["35".data, "mm".data] = [("35mm".data, true)] ∧
    mergeTokens ["Queen".data, "Sans".data] =
      [("Queen".data, false), ("Sans".data, false)] := by
  constructor
  · rw [merge_pass_characterization.1 "35".data "mm".data [] (by decide) (by decide)]
    rfl
  · rw [merge_pass_characterization.2.1 "Queen".data "Sans".data [] (by decide)]
    rw [merge_pass_characterization.2.2.1 "Sans".data]

/-! ## Money/percent spacing rules -/

theorem isNumericTok_of_alpha_head {p : List Char} (h : isAlphaNumTok p = true) :
    isNumericTok p = false := by
  cases p with
  | nil => simp [isAlphaNumTok] at h
  | cons c r =>
    simp only [isAlphaNumTok] at h
    have hd : digitB c = false := by
      simp only [alphaB, Bool.or_eq_true] at h
      cases h with
      | inl h => exact digitB_of_upperB h
      | inr h => exact digitB_of_lowerB h
    have h1 : pyIsDigit (c :: r) = false := by
      simp [pyIsDigit, hd]
    have h2 : isDecimalShape (c :: r) = false := by
      have ht : List.takeWhile digitB (c :: r) = [] :=
        List.takeWhile_cons_of_neg (by simp [hd])
      simp [isDecimalShape, digitRun, ht]
    simp [isNumericTok, h1, h2]

/-- Claim C5. In the spacing engine, a `"$"` or `"%"` token gets no space
before it when the previous token is purely numeric and a space before it
when the previous token starts with a letter; `"$"` never has a space
inserted after it, while `"%"` gets a space after exactly when a next
token exists and starts with a letter; hence the `"Price$19.99"`,
`"100%Success"` and `"50%"` examples. -/
theorem money_percent_spacing :
    (∀ (p t : List Char), (t = ['$'] ∨ t = ['%']) → isNumericTok p = true →
      needsSpaceBefore (some p) t = false) ∧
    (∀ (p t : List Char), (t = ['$'] ∨ t = ['%']) → isAlphaNumTok p = true →
      needsSpaceBefore (some p) t = true) ∧
    (∀ nx : Option (List Char), needsSpaceAfter ['$'] nx = false) ∧
    (∀ nx : List Char, needsSpaceAfter ['%'] (some nx) = isAlphaNumTok nx) ∧
    needsSpaceAfter ['%'] none = false ∧
    format_pascal_words "Price$19.99" = "Price $19.99" ∧
    format_pascal_words "100%Success" = "100% Success" ∧
    format_pascal_words "50%" = "50%" := by
  refine ⟨?_, ?_, ?_, ?_, rfl, by decide, by decide, by decide⟩
  · rintro p t (rfl | rfl) h <;> simp +decide [needsSpaceBefore, h]
  · rintro p t (rfl | rfl) h <;>
      simp +decide [needsSpaceBefore, isNumericTok_of_alpha_head h, h]
  · rintro (_ | nx) <;> simp +decide [needsSpaceAfter]
  · intro nx
    simp +decide [needsSpaceAfter]

/-- Witness for C5 at concrete tokens. -/
theorem money_percent_spacing_witness :
    needsSpaceBefore (some "100".data) ['%'] = false ∧
    needsSpaceBefore (some "Price".data) ['$'] = true ∧
    needsSpaceAfter ['%'] (some "Success".data) = isAlphaNumTok "Success".data :=
  ⟨money_percent_spacing.1 _ _ (Or.inr rfl) (by decide),
   money_percent_spacing.2.1 _ _ (Or.inl rfl) (by decide),
   money_percent_spacing.2.2.2.1 _⟩

/-! ## Acronym-run behaviour of the tokenizer -/

theorem scanAuxF_step (fuel : Nat) (pending : List Char) (prev : Option Char)
    (c : Char) (rest : List Char) :
    scanAuxF (fuel + 1) pending prev (c :: rest) =
      match matchLen prev (c :: rest) with
      | none => scanAuxF fuel (c :: pending) (some c) rest
      | some n =>
        (if pending.isEmpty then [(c :: rest).take n]
         else [pending.reverse, (c :: rest).take n])
          ++ scanAuxF fuel [] ((c :: rest).take n).getLast? ((c :: rest).drop n) := rfl

/-- If the pattern matches with length `n` at the start, the first token
is the first `n` characters. -/
theorem tokenizePC_first (cs : List Char) (n : Nat)
    (hn : matchLen none cs = some n) (hne : cs ≠ []) :
    ∃ ts, tokenizePC cs = cs.take n :: ts := by
  cases cs with
  | nil => exact absurd rfl hne
  | cons c rest =>
    refine ⟨scanAuxF rest.length [] ((c :: rest).take n).getLast? ((c :: rest).drop n), ?_⟩
    show scanAuxF (c :: rest).length [] none (c :: rest) = _
    rw [show (c :: rest).length = rest.length + 1 by simp, scanAuxF_step, hn]
    simp

/-- The `AcronymRun` alternative: a run of uppercase letters followed by
an uppercase-then-lowercase pair matches the run (lookahead only — the
following capital is not consumed). -/
theorem matchLen_acronym (prev : Option Char) (us : List Char) (u l : Char)
    (rest : List Char) (hne : us ≠ []) (hall : ∀ a ∈ us, upperB a = true)
    (hu : upperB u = true) (hl : lowerB l = true) :
    matchLen prev (us ++ u :: l :: rest) = some us.length := by
  have hpos : 0 < us.length := List.length_pos.mpr hne
  have htw : (us ++ u :: l :: rest).takeWhile upperB = us ++ [u] := by
    rw [List.takeWhile_append_of_pos hall, List.takeWhile_cons_of_pos hu,
      List.takeWhile_cons_of_neg (by simp [upperB_of_lowerB hl])]
  have hk : upperRun (us ++ u :: l :: rest) = us.length + 1 := by
    simp [upperRun, htw]
  have hget : (us ++ u :: l :: rest)[us.length + 1]? = some l := by
    rw [List.getElem?_append_right (by omega)]
    simp
  have hacr : altAcronym (us ++ u :: l :: rest) = some us.length := by
    simp only [altAcronym, hk]
    rw [if_pos (by omega : 2 ≤ us.length + 1), hget]
    simp [hl]
  simp only [matchLen, hacr]

/-- The `AllCapsRun` alternative: a maximal run of two or more uppercase
letters not followed by a lowercase letter matches whole. -/
theorem matchLen_allcaps (prev : Option Char) (us rest : List Char)
    (hall : ∀ a ∈ us, upperB a = true) (hlen : 2 ≤ us.length)
    (hrest : ∀ c, rest.head? = some c → upperB c = false ∧ lowerB c = false) :
    matchLen prev (us ++ rest) = some us.length := by
  obtain ⟨a, b, us₂, rfl⟩ : ∃ a b us₂, us = a :: b :: us₂ := by
    match us, hlen with
    | a :: b :: us₂, _ => exact ⟨a, b, us₂, rfl⟩
  have ha : upperB a = true := hall a (by simp)
  have hb : upperB b = true := hall b (by simp)
  have hall₂ : ∀ x ∈ us₂, upperB x = true := fun x hx => hall x (by simp [hx])
  have htwrest : rest.takeWhile upperB = [] := by
    cases rest with
    | nil => rfl
    | cons c r => exact List.takeWhile_cons_of_neg (by simp [(hrest c rfl).1])
  have htw : (a :: b :: (us₂ ++ rest)).takeWhile upperB = a :: b :: us₂ := by
    rw [List.takeWhile_cons_of_pos ha, List.takeWhile_cons_of_pos hb,
      List.takeWhile_append_of_pos hall₂, htwrest, List.append_nil]
  have hk : upperRun (a :: b :: (us₂ ++ rest)) = us₂.length + 2 := by
    unfold upperRun
    rw [htw]
    simp
  have hget : (a :: b :: (us₂ ++ rest))[us₂.length + 2]? = rest.head? := by
    show ((a :: b :: us₂) ++ rest)[us₂.length + 2]? = rest.head?
    rw [List.getElem?_append_right (by simp)]
    have : us₂.length + 2 - (a :: b :: us₂).length = 0 := by simp
    rw [this]
    cases rest <;> simp
  have hacr : altAcronym (a :: b :: (us₂ ++ rest)) = none := by
    simp only [altAcronym, hk, hget]
    have h2 : 2 ≤ us₂.length + 2 := by omega
    simp only [h2, if_true]
    cases hr : rest.head? with
    | none => simp
    | some c => simp [(hrest c hr).2]
  have hdrun : digitRun (b :: (us₂ ++ rest)) = 0 := by
    unfold digitRun
    rw [List.takeWhile_cons_of_neg (by simp [digitB_of_upperB hb])]
    rfl
  have hcap : altSingleCapNum prev (a :: b :: (us₂ ++ rest)) = none := by
    simp only [altSingleCapNum, hdrun]
    split <;> simp
  have hdrun0 : digitRun (a :: b :: (us₂ ++ rest)) = 0 := by
    unfold digitRun
    rw [List.takeWhile_cons_of_neg (by simp [digitB_of_upperB ha])]
    rfl
  have hdec : altDecimal (a :: b :: (us₂ ++ rest)) = none := by
    simp [altDecimal, hdrun0]
  have hlrun : lowerRun (b :: (us₂ ++ rest)) = 0 := by
    unfold lowerRun
    rw [List.takeWhile_cons_of_neg (by simp [lowerB_of_upperB hb])]
    rfl
  have hword : altCapWord (a :: b :: (us₂ ++ rest)) = none := by
    simp only [altCapWord, ha, hlrun, if_true]
  have hcaps : altAllCaps (a :: b :: (us₂ ++ rest)) = some (us₂.length + 2) := by
    simp only [altAllCaps, hk]
    have h2 : 2 ≤ us₂.length + 2 := by omega
    simp [h2]
  show matchLen prev (a :: b :: (us₂ ++ rest)) = some (a :: b :: us₂).length
  simp only [matchLen, hacr, hcap, hdec, hword, hcaps]
  exact congrArg some (by simp)

/-- Claim C2. The tokenizer keeps a maximal uppercase run immediately
followed by an uppercase-then-lowercase pair together as one acronym
token (lookahead only), and keeps a run of two or more uppercase letters
together when no letter follows; consequently the `"KWAKGrotesk"`,
`"UIUXKit"` and `"ABCD"` examples. -/
theorem acronym_tokenization :
    (∀ (us : List Char) (u l : Char) (rest : List Char),
      us ≠ [] → (∀ a ∈ us, upperB a = true) → upperB u = true → lowerB l = true →
      ∃ ts, tokenizePC (us ++ u :: l :: rest) = us :: ts) ∧
    (∀ us rest : List Char,
      (∀ a ∈ us, upperB a = true) → 2 ≤ us.length →
      (∀ c, rest.head? = some c → upperB c = false ∧ lowerB c = false) →
      ∃ ts, tokenizePC (us ++ rest) = us :: ts) ∧
    family_from_filename "KWAKGrotesk-ExtraBold" true = "KWAK Grotesk" ∧
    format_pascal_words "UIUXKit" = "UIUX Kit" ∧
    format_pascal_words "ABCD" = "ABCD" := by
  refine ⟨?_, ?_, by decide, by decide, by decide⟩
  · intro us u l rest hne hall hu hl
    obtain ⟨ts, hts⟩ := tokenizePC_first (us ++ u :: l :: rest) us.length
      (matchLen_acronym none us u l rest hne hall hu hl)
      (by simp [hne])
    rw [List.take_left' rfl] at hts
    exact ⟨ts, hts⟩
  · intro us rest hall hlen hrest
    have hne : us ≠ [] := by
      intro h
      rw [h] at hlen
      simp at hlen
    obtain ⟨ts, hts⟩ := tokenizePC_first (us ++ rest) us.length
      (matchLen_allcaps none us rest hall hlen hrest)
      (by simp [hne])
    rw [List.take_left' rfl] at hts
    exact ⟨ts, hts⟩

/-- Witness for C2: the acronym case on `"XMLHttp"` and the trailing
all-caps case on `"ABCD"`. -/
theorem acronym_tokenization_witness :
    (∃ ts, tokenizePC ("XML".data ++ 'H' :: 't' :: "tp".data) = "XML".data :: ts) ∧
    (∃ ts, tokenizePC ("ABCD".data ++ []) = "ABCD".data :: ts) :=
  ⟨acronym_tokenization.1 "XML".data 'H' 't' "tp".data (by decide) (by decide)
      (by decide) (by decide),
   acronym_tokenization.2.1 "ABCD".data [] (by decide) (by decide)
      (fun c hc => by simp at hc)⟩

/-! ## No-hyphen inputs: `split_family_subfamily` versus
`format_pascal_words` -/

theorem hyphen_not_in_posixBasename {cs : List Char} (h : '-' ∉ cs) :
    '-' ∉ posixBasename cs := by
  intro hm
  apply h
  unfold posixBasename at hm
  rw [List.mem_reverse] at hm
  have := (List.takeWhile_sublist (fun c => c != '/')).subset hm
  rw [List.mem_reverse] at this
  exact this

theorem hyphen_not_in_sanitize {cs : List Char} (h : '-' ∉ cs) :
    '-' ∉ sanitizeForbidden cs := by
  intro hm
  unfold sanitizeForbidden at hm
  rw [List.mem_map] at hm
  obtain ⟨a, ha, hfa⟩ := hm
  split at hfa
  · exact absurd hfa (by decide)
  · exact h (hfa ▸ ha)

theorem mem_replaceCFF2F :
    ∀ (fuel : Nat) (cs : List Char) (c : Char),
    c ∈ replaceCFF2F fuel cs → c = '.' ∨ c ∈ cs := by
  intro fuel
  induction fuel with
  | zero => intro cs c hc; exact Or.inr hc
  | succ fuel ih =>
    intro cs c hc
    cases cs with
    | nil => simp [replaceCFF2F] at hc
    | cons a r =>
      rw [replaceCFF2F] at hc
      by_cases hp : cff2Pat.isPrefixOf (a :: r) = true
      · rw [if_pos hp] at hc
        rcases List.mem_cons.mp hc with hdot | hrec
        · exact Or.inl hdot
        · rcases ih _ _ hrec with hdot | hmem
          · exact Or.inl hdot
          · exact Or.inr (List.mem_of_mem_drop hmem)
      · rw [if_neg hp] at hc
        rcases List.mem_cons.mp hc with hhead | hrec
        · exact Or.inr (hhead ▸ List.mem_cons_self a r)
        · rcases ih _ _ hrec with hdot | hmem
          · exact Or.inl hdot
          · exact Or.inr (List.mem_cons_of_mem a hmem)

theorem hyphen_not_in_cff2Fix {cs : List Char} (h : '-' ∉ cs) :
    '-' ∉ cff2Fix cs := by
  unfold cff2Fix
  split
  · intro hm
    rcases mem_replaceCFF2F cs.length cs '-' hm with hdot | hmem
    · exact absurd hdot (by decide)
    · exact h hmem
  · split
    · intro hm
      exact h ((List.take_sublist _ _).subset hm)
    · exact h

theorem hyphen_not_in_splitext {cs : List Char} (h : '-' ∉ cs) :
    '-' ∉ splitextStem cs := by
  intro hm
  simp only [splitextStem] at hm
  split at hm
  · split at hm
    · exact h hm
    · exact h ((List.take_sublist _ _).subset hm)
  · exact h hm

theorem hyphen_not_in_normalize {cs : List Char} (stripExtension : Bool)
    (h : '-' ∉ cs) : '-' ∉ normalizeBasename cs stripExtension := by
  unfold normalizeBasename
  have h1 := hyphen_not_in_cff2Fix (hyphen_not_in_sanitize (hyphen_not_in_posixBasename h))
  cases stripExtension with
  | false => exact h1
  | true => exact hyphen_not_in_splitext h1

/-- Claim C7, counterexample. `"Name.ttf"` contains no hyphen, yet
`split_family_subfamily` (which normalizes the basename first, stripping
the extension) differs from `format_pascal_words` applied to the raw
string: the former gives `("Name", "")`, the latter component would be
`"N ame. ttf"`. -/
theorem split_no_hyphen_counterexample :
    '-' ∉ "Name.ttf".data ∧
    split_family_subfamily "Name.ttf" true = ("Name", "") ∧
    format_pascal_words "Name.ttf" = "N ame. ttf" ∧
    split_family_subfamily "Name.ttf" true ≠ (format_pascal_words "Name.ttf", "") :=
  ⟨by decide, by decide, by decide, by decide⟩

/-- Claim C7, amended. For every string `s` containing no hyphen,
`split_family_subfamily s` (default `strip_extension=True`) equals
`(format_pascal_words (_normalize_basename s), "")` — the family side is
the *normalized basename* formatted, not the raw string formatted. -/
theorem split_no_hyphen_amended (s : String) (h : '-' ∉ s.data) :
    split_family_subfamily s true
      = (format_pascal_words (normalize_basename s true), "") := by
  have hb : '-' ∉ normalizeBasename s.data true := hyphen_not_in_normalize true h
  have hsplit : splitAtHyphen (normalizeBasename s.data true)
      = (normalizeBasename s.data true, []) := by
    unfold splitAtHyphen
    rw [if_neg (by simpa using hb)]
  simp only [split_family_subfamily, hsplit]
  rfl

/-- Witness for C7 (amended) at `"NoHyphenName"`. -/
theorem split_no_hyphen_amended_witness :
    split_family_subfamily "NoHyphenName" true
      = (format_pascal_words (normalize_basename "NoHyphenName" true), "") :=
  split_no_hyphen_amended "NoHyphenName" (by decide)

/-! ## Spacing hygiene: no leading/trailing space, no double space -/

theorem mem_of_head? {α : Type} {l : List α} {a : α} (h : l.head? = some a) : a ∈ l := by
  cases l <;> simp_all

theorem mem_of_getLast? {α : Type} {l : List α} {a : α} (h : l.getLast? = some a) :
    a ∈ l := by
  rw [← List.head?_reverse] at h
  have : a ∈ l.reverse := by cases hr : l.reverse <;> simp_all
  simpa using this

theorem head?_append_left {α : Type} {l l' : List α} (h : l ≠ []) :
    (l ++ l').head? = l.head? := by
  cases l <;> simp_all

theorem getLast?_of_suffix {α : Type} {l₁ l₂ : List α} {a : α} (h : l₁ <:+ l₂)
    (ha : l₁.getLast? = some a) : l₂.getLast? = some a := by
  obtain ⟨pre, rfl⟩ := h
  simp [List.getLast?_append, ha]

theorem head?_dropWhile_false {l : List Char} {p : Char → Bool} {c : Char}
    (h : (l.dropWhile p).head? = some c) : p c = false := by
  have H := List.head?_dropWhile_not p l
  rw [h] at H
  exact H

theorem splitUnderscore_ne_nil : ∀ cs : List Char, splitUnderscore cs ≠ [] := by
  intro cs
  cases cs with
  | nil => simp [splitUnderscore]
  | cons c rest =>
    simp only [splitUnderscore]
    split <;> simp

theorem mem_splitUnderscore :
    ∀ (cs t : List Char), t ∈ splitUnderscore cs → ∀ c ∈ t, c ∈ cs := by
  intro cs
  induction cs with
  | nil =>
    intro t ht c hc
    simp [splitUnderscore] at ht
    subst ht
    simp at hc
  | cons a r ih =>
    intro t ht c hc
    obtain ⟨s, ss, hsplit⟩ : ∃ s ss, splitUnderscore r = s :: ss := by
      cases hs : splitUnderscore r with
      | nil => exact absurd hs (splitUnderscore_ne_nil r)
      | cons s ss => exact ⟨s, ss, rfl⟩
    simp only [splitUnderscore, hsplit] at ht
    split at ht
    · rcases List.mem_cons.mp ht with rfl | hmem
      · simp at hc
      · exact List.mem_cons_of_mem a (ih t (hsplit ▸ hmem) c hc)
    · simp only [List.headD_cons, List.tail_cons] at ht
      rcases List.mem_cons.mp ht with rfl | hmem
      · rcases List.mem_cons.mp hc with rfl | hcs
        · exact List.mem_cons_self c r
        · exact List.mem_cons_of_mem a
            (ih s (hsplit ▸ List.mem_cons_self s ss) c hcs)
      · exact List.mem_cons_of_mem a
          (ih t (hsplit ▸ List.mem_cons_of_mem s hmem) c hc)

theorem mem_mergeLoopF :
    ∀ (fuel : Nat) (ts : List (List Char)) (i : Nat) (p : List Char × Bool),
    p ∈ mergeLoopF fuel ts i → ∀ c ∈ p.1, ∃ t ∈ ts, c ∈ t := by
  intro fuel
  induction fuel with
  | zero => intro ts i p hp; simp [mergeLoopF_zero] at hp
  | succ fuel ih =>
    intro ts i p hp c hc
    rw [mergeLoopF_step] at hp
    by_cases hi : i < ts.length
    · rw [if_pos hi] at hp
      have hmemi : ts.getD i [] ∈ ts := by
        rw [List.getD_eq_getElem ts [] hi]
        exact List.getElem_mem hi
      split at hp
      · rcases List.mem_cons.mp hp with rfl | hrec
        · rcases List.mem_append.mp hc with h1 | h2
          · exact ⟨ts.getD i [], hmemi, h1⟩
          · rename_i hcond
            have hi1 : i + 1 < ts.length := hcond.2.1
            refine ⟨ts.getD (i + 1) [], ?_, h2⟩
            rw [List.getD_eq_getElem ts [] hi1]
            exact List.getElem_mem hi1
        · exact ih ts (i + 2) p hrec c hc
      · rcases List.mem_cons.mp hp with rfl | hrec
        · exact ⟨ts.getD i [], hmemi, hc⟩
        · exact ih ts (i + 1) p hrec c hc
    · rw [if_neg hi] at hp
      simp at hp

theorem format_token_no_space {t : List Char} (h : ' ' ∉ t) :
    ' ' ∉ format_token t := by
  cases t with
  | nil => simp [format_token]
  | cons c rest =>
    have hc : c ≠ ' ' := fun he => h (he ▸ List.mem_cons_self c rest)
    simp only [format_token]
    split
    · exact h
    · split
      · exact h
      · split
        · exact h
        · split
          · exact h
          · intro hm
            rcases List.mem_cons.mp hm with h1 | h2
            · exact charUpper_ne_space hc h1.symm
            · rw [List.mem_map] at h2
              obtain ⟨d, hd, hde⟩ := h2
              have hdne : d ≠ ' ' := fun he => h (he ▸ List.mem_cons_of_mem c hd)
              exact charLower_ne_space hdne hde

theorem formatSegment_no_space {seg t : List Char} (hseg : ' ' ∉ seg)
    (ht : t ∈ formatSegment seg) : ' ' ∉ t := by
  have hmerged : ∀ p : List Char × Bool, p ∈ mergeTokens (tokenizePC seg) → ' ' ∉ p.1 := by
    intro p hp hsp
    obtain ⟨tok, htok, hctok⟩ := mem_mergeLoopF _ _ _ p hp ' ' hsp
    exact hseg (tokenizePC_flatten seg ▸ List.mem_flatten_of_mem htok hctok)
  simp only [formatSegment] at ht
  split at ht
  · rw [List.mem_map] at ht
    obtain ⟨p, hp, rfl⟩ := ht
    exact hmerged p hp
  · rw [List.mem_map] at ht
    obtain ⟨p, hp, rfl⟩ := ht
    by_cases hb : p.2 = true
    · simpa [hb] using hmerged p hp
    · have hb' : p.2 = false := by simpa using hb
      simpa [hb'] using format_token_no_space (hmerged p hp)

/-- A trailing space is only ever produced by `"%"` or a
`TRAILING_SPACE` token. -/
theorem after_imp_shape {t : List Char} {nx : Option (List Char)}
    (h : needsSpaceAfter t nx = true) : t = ['%'] ∨ isTrailingTok t = true := by
  cases nx with
  | none => simp [needsSpaceAfter] at h
  | some u =>
    simp only [needsSpaceAfter] at h
    by_cases h1 : isNoSpaceTok t = true
    · simp [h1] at h
    · by_cases h2 : t = ['$']
      · simp [h1, h2] at h
      · by_cases h3 : t = ['%']
        · exact Or.inl h3
        · by_cases h4 : isTrailingTok t = true
          · exact Or.inr h4
          · simp [h1, h2, h3, h4] at h

theorem trailing_shape {t : List Char} (h : isTrailingTok t = true) :
    ∃ c, t = [c] ∧
      (c = '!' ∨ c = '?' ∨ c = ',' ∨ c = ';' ∨ c = ')' ∨ c = ']' ∨ c = '}') := by
  match t, h with
  | [c], h =>
    refine ⟨c, rfl, ?_⟩
    simp only [isTrailingTok] at h
    simpa using h

theorem trailing_not_alpha {t : List Char} (h : isTrailingTok t = true) :
    isAlphaNumTok t = false := by
  obtain ⟨c, rfl, hc⟩ := trailing_shape h
  rcases hc with rfl | rfl | rfl | rfl | rfl | rfl | rfl <;> decide

theorem trailing_not_noSpace {t : List Char} (h : isTrailingTok t = true) :
    isNoSpaceTok t = false := by
  obtain ⟨c, rfl, hc⟩ := trailing_shape h
  rcases hc with rfl | rfl | rfl | rfl | rfl | rfl | rfl <;> decide

theorem trailing_not_leading {t : List Char} (h : isTrailingTok t = true) :
    isLeadingTok t = false := by
  obtain ⟨c, rfl, hc⟩ := trailing_shape h
  rcases hc with rfl | rfl | rfl | rfl | rfl | rfl | rfl <;> decide

theorem trailing_not_dollar {t : List Char} (h : isTrailingTok t = true) :
    t ≠ ['$'] := by
  obtain ⟨c, rfl, hc⟩ := trailing_shape h
  rcases hc with rfl | rfl | rfl | rfl | rfl | rfl | rfl <;> decide

theorem trailing_not_percent {t : List Char} (h : isTrailingTok t = true) :
    t ≠ ['%'] := by
  obtain ⟨c, rfl, hc⟩ := trailing_shape h
  rcases hc with rfl | rfl | rfl | rfl | rfl | rfl | rfl <;> decide

/-- A `"%"` or `TRAILING_SPACE` token never lets its successor add a
space before itself. -/
theorem before_false_of_shape {t u : List Char}
    (hshape : t = ['%'] ∨ isTrailingTok t = true) :
    needsSpaceBefore (some t) u = false := by
  have halpha : isAlphaNumTok t = false := by
    rcases hshape with rfl | h
    · decide
    · exact trailing_not_alpha h
  simp only [needsSpaceBefore]
  by_cases h1 : isNoSpaceTok u = true
  · simp [h1]
  · by_cases h2 : isTrailingTok u = true
    · simp [h1, h2]
    · by_cases h3 : u = ['$']
      · simp [h1, h2, h3, halpha]
      · by_cases h4 : u = ['%']
        · simp [h1, h2, h3, h4, halpha]
        · by_cases h5 : isLeadingTok u = true
          · simp [h1, h2, h3, h4, h5, halpha]
          · rcases hshape with rfl | ht
            · simp +decide [h1, h2, h3, h4, h5]
            · simp [h1, h2, h3, h4, h5, trailing_not_noSpace ht, ht]

/-- The central no-double-space fact: a token's trailing space and the
next token's leading space never both fire. -/
theorem after_before_exclusive {t u : List Char}
    (h : needsSpaceAfter t (some u) = true) :
    needsSpaceBefore (some t) u = false :=
  before_false_of_shape (after_imp_shape h)

theorem chain'_of_no_space {t : List Char} (h : ' ' ∉ t) :
    List.Chain' noDoubleSpace t := by
  induction t with
  | nil => exact List.chain'_nil
  | cons a r ih =>
    rw [List.chain'_cons']
    refine ⟨?_, ih fun hm => h (List.mem_cons_of_mem a hm)⟩
    intro b _ hab
    cases hab.1
    exact h (List.mem_cons_self _ _)

theorem exists_getLast? {α : Type} {l : List α} (h : l ≠ []) :
    ∃ a, l.getLast? = some a := by
  cases hr : l.reverse with
  | nil => exact absurd (List.reverse_eq_nil_iff.mp hr) h
  | cons a r =>
    refine ⟨a, ?_⟩
    rw [← List.head?_reverse, hr]
    rfl

/-- The spacing loop emits a character stream with no two adjacent
spaces, and it starts with a space only when the first token's
before-rule fired. -/
theorem spaceGo_chain :
    ∀ (ts : List (List Char)) (prev : Option (List Char)),
    (∀ t ∈ ts, t ≠ [] ∧ ' ' ∉ t) →
    List.Chain' noDoubleSpace ((spaceGo prev ts).flatten) ∧
    (∀ c, ((spaceGo prev ts).flatten).head? = some c → c = ' ' →
      ∃ u us, ts = u :: us ∧ needsSpaceBefore prev u = true) := by
  intro ts
  induction ts with
  | nil =>
    intro prev _
    refine ⟨by simp [spaceGo], ?_⟩
    intro c hc
    simp [spaceGo] at hc
  | cons t rest ih =>
    intro prev h
    obtain ⟨htne, htsp⟩ := h t (List.mem_cons_self t rest)
    have hrest : ∀ u ∈ rest, u ≠ [] ∧ ' ' ∉ u :=
      fun u hu => h u (List.mem_cons_of_mem t hu)
    obtain ⟨ihchain, ihhead⟩ := ih (some t) hrest
    have htlast : ∀ x, t.getLast? = some x → x ≠ ' ' :=
      fun x hx hx' => htsp (hx' ▸ mem_of_getLast? hx)
    have hthead : ∀ x, t.head? = some x → x ≠ ' ' :=
      fun x hx hx' => htsp (hx' ▸ mem_of_head? hx)
    have hchainTF : List.Chain' noDoubleSpace
        (t ++ (spaceGo (some t) rest).flatten) := by
      rw [List.chain'_append]
      refine ⟨chain'_of_no_space htsp, ihchain, ?_⟩
      intro x hx y _ hxy
      exact htlast x hx hxy.1
    by_cases hA : needsSpaceAfter t rest.head? = true
    · have hFne : ∀ y, ((spaceGo (some t) rest).flatten).head? = some y → y ≠ ' ' := by
        intro y hy hy'
        subst hy'
        obtain ⟨u, us, hre, hbu⟩ := ihhead ' ' hy rfl
        have hhead : rest.head? = some u := by rw [hre]; rfl
        rw [hhead] at hA
        rw [after_before_exclusive hA] at hbu
        exact absurd hbu (by decide)
      have hchainSF : List.Chain' noDoubleSpace
          (' ' :: (spaceGo (some t) rest).flatten) := by
        rw [List.chain'_cons']
        refine ⟨?_, ihchain⟩
        intro y hy hxy
        exact hFne y hy hxy.2
      have hchainTSF : List.Chain' noDoubleSpace
          (t ++ ' ' :: (spaceGo (some t) rest).flatten) := by
        rw [List.chain'_append]
        refine ⟨chain'_of_no_space htsp, hchainSF, ?_⟩
        intro x hx y _ hxy
        exact htlast x hx hxy.1
      by_cases hB : needsSpaceBefore prev t = true
      · constructor
        · simp only [spaceGo, hB, hA, if_true, List.flatten_cons, List.append_assoc,
            List.singleton_append, List.cons_append, List.nil_append]
          rw [List.chain'_cons']
          refine ⟨?_, hchainTSF⟩
          intro b hb hxb
          rw [head?_append_left htne] at hb
          exact hthead b hb hxb.2
        · intro c _ _
          exact ⟨t, rest, rfl, hB⟩
      · constructor
        · simp only [spaceGo, hB, hA, if_true, if_false, Bool.false_eq_true,
            List.flatten_cons, List.append_assoc, List.singleton_append,
            List.cons_append, List.nil_append]
          exact hchainTSF
        · intro c hc hc'
          simp only [spaceGo, hB, hA, if_true, if_false, Bool.false_eq_true,
            List.flatten_cons, List.append_assoc, List.singleton_append,
            List.cons_append, List.nil_append] at hc
          rw [head?_append_left htne] at hc
          exact absurd hc' (hthead c hc)
    · by_cases hB : needsSpaceBefore prev t = true
      · constructor
        · simp only [spaceGo, hB, hA, if_true, if_false, Bool.false_eq_true,
            List.flatten_cons, List.append_assoc, List.singleton_append,
            List.cons_append, List.nil_append, List.append_nil]
          rw [List.chain'_cons']
          refine ⟨?_, hchainTF⟩
          intro b hb hxb
          rw [head?_append_left htne] at hb
          exact hthead b hb hxb.2
        · intro c _ _
          exact ⟨t, rest, rfl, hB⟩
      · constructor
        · simp only [spaceGo, hB, hA, if_false, Bool.false_eq_true,
            List.flatten_cons, List.append_assoc, List.singleton_append,
            List.cons_append, List.nil_append, List.append_nil]
          exact hchainTF
        · intro c hc hc'
          simp only [spaceGo, hB, hA, if_false, Bool.false_eq_true,
            List.flatten_cons, List.append_assoc, List.singleton_append,
            List.cons_append, List.nil_append, List.append_nil] at hc
          rw [head?_append_left htne] at hc
          exact absurd hc' (hthead c hc)

theorem chain'_flip_noDouble {l : List Char} (h : List.Chain' noDoubleSpace l) :
    List.Chain' (flip noDoubleSpace) l :=
  h.imp fun _ _ hab hba => hab ⟨hba.2, hba.1⟩

theorem chain'_stripBoth {l : List Char} (h : List.Chain' noDoubleSpace l) :
    List.Chain' noDoubleSpace (stripBoth l) := by
  unfold stripBoth
  have h1 : List.Chain' noDoubleSpace (l.dropWhile isPySpace) :=
    h.infix (List.dropWhile_suffix isPySpace).isInfix
  have h2 : List.Chain' noDoubleSpace ((l.dropWhile isPySpace).reverse) :=
    List.chain'_reverse.mpr (chain'_flip_noDouble h1)
  have h3 := h2.infix (List.dropWhile_suffix isPySpace).isInfix
  exact List.chain'_reverse.mpr (chain'_flip_noDouble h3)

theorem stripBoth_getLast?_not_space {l : List Char} {c : Char}
    (h : (stripBoth l).getLast? = some c) : isPySpace c = false := by
  unfold stripBoth at h
  rw [List.getLast?_reverse] at h
  exact head?_dropWhile_false h

theorem stripBoth_head?_not_space {l : List Char} {c : Char}
    (h : (stripBoth l).head? = some c) : isPySpace c = false := by
  unfold stripBoth at h
  rw [List.head?_reverse] at h
  have h2 : ((l.dropWhile isPySpace).reverse).getLast? = some c :=
    getLast?_of_suffix (List.dropWhile_suffix isPySpace) h
  rw [List.getLast?_reverse] at h2
  exact head?_dropWhile_false h2

/-- Claim C10, amended. The output of `format_pascal_words` (and hence
each component of `split_family_subfamily`) never begins or ends with a
space, for every input; and when the input itself contains no space
character, the output never contains two consecutive spaces (each token
contributes at most one leading and one trailing space, a trailing space
and the next token's leading space never both fire, and the joined
result is stripped). -/
theorem format_pascal_words_clean (s : String) :
    (∀ c, (format_pascal_words s).data.head? = some c → c ≠ ' ') ∧
    (∀ c, (format_pascal_words s).data.getLast? = some c → c ≠ ' ') ∧
    (' ' ∉ s.data → List.Chain' noDoubleSpace (format_pascal_words s).data) := by
  have hdata : (format_pascal_words s).data = formatPW s.data := rfl
  rw [hdata]
  unfold formatPW
  by_cases hemp : s.data.isEmpty = true
  · rw [if_pos hemp]
    exact ⟨fun c hc => by simp at hc, fun c hc => by simp at hc,
      fun _ => List.chain'_nil⟩
  · rw [if_neg hemp]
    refine ⟨?_, ?_, ?_⟩
    · intro c hc hc'
      have := stripBoth_head?_not_space hc
      subst hc'
      simp [isPySpace] at this
    · intro c hc hc'
      have := stripBoth_getLast?_not_space hc
      subst hc'
      simp [isPySpace] at this
    · intro hsp
      apply chain'_stripBoth
      unfold apply_spacing_rules
      refine (spaceGo_chain _ none ?_).1
      intro tok htok
      rw [List.mem_filter] at htok
      obtain ⟨htoks, hne⟩ := htok
      refine ⟨by simpa using hne, ?_⟩
      rw [List.mem_flatten] at htoks
      obtain ⟨fs, hfs, htokfs⟩ := htoks
      rw [List.mem_map] at hfs
      obtain ⟨seg, hseg, rfl⟩ := hfs
      rw [List.mem_filter] at hseg
      have hsegsp : ' ' ∉ seg :=
        fun hm => hsp (mem_splitUnderscore s.data seg hseg.1 ' ' hm)
      exact formatSegment_no_space hsegsp htokfs

theorem not_chain'_of_hasDouble :
    ∀ l : List Char, hasDoubleSpace l = true → ¬ List.Chain' noDoubleSpace l := by
  intro l
  induction l with
  | nil => intro h; simp [hasDoubleSpace] at h
  | cons a r ih =>
    cases r with
    | nil => intro h; simp [hasDoubleSpace] at h
    | cons b rest =>
      intro h hchain
      rw [List.chain'_cons] at hchain
      rw [hasDoubleSpace] at h
      cases (Bool.or_eq_true _ _).mp h with
      | inl hab =>
        have hab' := (Bool.and_eq_true _ _).mp hab
        exact hchain.1 ⟨beq_iff_eq.mp hab'.1, beq_iff_eq.mp hab'.2⟩
      | inr hrec => exact ih hrec hchain.2

/-- Claim C10, counterexample. On input `"a b"` — whose space survives
inside an unmatched token — the output is `"a  b"`, which does contain
two consecutive spaces, refuting the unconditional claim. -/
theorem double_space_counterexample :
    format_pascal_words "a b" = "a  b" ∧
    hasDoubleSpace (format_pascal_words "a b").data = true ∧
    ¬ List.Chain' noDoubleSpace (format_pascal_words "a b").data :=
  ⟨by decide, by decide, not_chain'_of_hasDouble _ (by decide)⟩

/-- Witness for C10 at `"Font!Name"`. -/
theorem format_pascal_words_clean_witness :
    ('F' ≠ ' ') ∧
    List.Chain' noDoubleSpace (format_pascal_words "Font!Name").data :=
  ⟨(format_pascal_words_clean "Font!Name").1 'F' (by decide),
   (format_pascal_words_clean "Font!Name").2.2 (by decide)⟩

end FontCore
